import Mathlib

/-!
Verification development for the yamldoc repository: a shallow embedding of
its traversal, markup-resolution, slug-derivation and bulk-creation code,
with theorems checking the natural-language specification against it.
-/

set_option autoImplicit false

namespace Yamldoc

instance {ε α : Type} [DecidableEq ε] [DecidableEq α] :
    DecidableEq (Except ε α)
  | .ok a, .ok b => decidable_of_iff (a = b) (by simp)
  | .error a, .error b => decidable_of_iff (a = b) (by simp)
  | .ok _, .error _ => isFalse (by simp)
  | .error _, .ok _ => isFalse (by simp)

/-! ## Models of external collaborators used by `yamldoc.util.misc.slugify`

`django.utils.html.strip_tags`, `unidecode.unidecode` and
`django.template.defaultfilters.slugify` are external library functions.
They are modelled here by executable functions implementing their documented
behaviour: tag stripping removes `<...>` segments; unidecode keeps ASCII
characters, transliterates a few known non-ASCII letters and drops the rest;
Django's default slugify lowercases, keeps ASCII word characters, whitespace
and hyphens, collapses hyphen/whitespace runs to a single hyphen, and strips
leading and trailing hyphens and underscores.
-/

/-- One step of tag stripping over characters: `inTag` records whether we are
inside an unclosed `<...>` segment. -/
def stripTagsAux : Bool → List Char → List Char
  | _, [] => []
  | false, c :: rest =>
    if c = '<' then stripTagsAux true rest else c :: stripTagsAux false rest
  | true, c :: rest =>
    if c = '>' then stripTagsAux false rest else stripTagsAux true rest

/-- Model of `django.utils.html.strip_tags`: remove HTML tags. -/
def strip_tags (s : String) : String :=
  ⟨stripTagsAux false s.data⟩

/-- Model of `unidecode.unidecode` on one character: ASCII characters map to
themselves, a small table transliterates common accented letters, anything
else is dropped (unidecode maps unknown characters to the empty string). -/
def unidecodeChar (c : Char) : List Char :=
  if c.toNat < 128 then [c]
  else if c = 'é' ∨ c = 'è' ∨ c = 'ê' then ['e']
  else if c = 'å' ∨ c = 'ä' ∨ c = 'á' then ['a']
  else if c = 'ö' ∨ c = 'ô' then ['o']
  else if c = 'ü' then ['u']
  else []

/-- Model of `unidecode.unidecode`: per-character transliteration to ASCII. -/
def unidecode (s : String) : String :=
  ⟨s.data.flatMap unidecodeChar⟩

/-- ASCII word character in the sense of the regex `\w`: letter, digit or
underscore. -/
def isWordChar (c : Char) : Bool :=
  (65 ≤ c.toNat ∧ c.toNat ≤ 90) ∨ (97 ≤ c.toNat ∧ c.toNat ≤ 122) ∨
    (48 ≤ c.toNat ∧ c.toNat ≤ 57) ∨ c = '_'

/-- Whitespace as matched by the regex `\s`, restricted to ASCII. -/
def isSpaceChar (c : Char) : Bool :=
  c = ' ' ∨ c = '\t' ∨ c = '\n' ∨ c = '\r'

/-- Collapse every run of whitespace and hyphens into a single hyphen (the
regex replacement of a run matching the character class of hyphen and
whitespace by one hyphen); the flag records whether we are inside a run. -/
def collapseAux : Bool → List Char → List Char
  | _, [] => []
  | inRun, c :: rest =>
    if isSpaceChar c ∨ c = '-' then
      if inRun then collapseAux true rest else '-' :: collapseAux true rest
    else c :: collapseAux false rest

def collapseRuns (l : List Char) : List Char :=
  collapseAux false l

/-- Drop leading and trailing hyphens and underscores. -/
def stripDashUnderscore (l : List Char) : List Char :=
  ((l.dropWhile (fun c => c = '-' ∨ c = '_')).reverse.dropWhile
    (fun c => c = '-' ∨ c = '_')).reverse

/-- Model of `django.template.defaultfilters.slugify` (ASCII mode): drop
non-ASCII characters, lowercase, keep only word characters, whitespace and
hyphens, collapse whitespace/hyphen runs to one hyphen, and strip leading
and trailing hyphens and underscores. -/
def default_slugify (s : String) : String :=
  let ascii := s.data.filter (fun c => c.toNat < 128)
  let lowered := ascii.map Char.toLower
  let kept := lowered.filter (fun c => isWordChar c ∨ isSpaceChar c ∨ c = '-')
  ⟨stripDashUnderscore (collapseRuns kept)⟩

/-! ## `yamldoc.util.misc.slugify` -/

/-- Embedding of `yamldoc.util.misc.slugify`: strip HTML tags, fail if
nothing is left, then transliterate and slugify, failing again if nothing is
left.  The `Except` error corresponds to the Python `ValueError`. -/
def slugify (string : String) : Except String String :=
  let clean := strip_tags string
  if clean = "" then
    .error ("Failed to slugify: Nothing left after HTML tags.")
  else
    let slug := default_slugify (unidecode clean)
    if slug = "" then
      .error ("Failed to slugify: Put clean text in, got nothing back.")
    else
      .ok slug

/-- A character admissible in a slug: lowercase ASCII letter, digit,
underscore or hyphen. -/
def isSlugChar (c : Char) : Bool :=
  (97 ≤ c.toNat ∧ c.toNat ≤ 122) ∨ (48 ≤ c.toNat ∧ c.toNat ≤ 57) ∨
    c = '_' ∨ c = '-'

/-! ## Data model for `yamldoc.util.traverse` and `yamldoc.util.resolution`

A Django `Field` is embedded as its name, the names of the classes in its
type's method-resolution order (so that `isinstance` checks against a class
allowlist can be evaluated), and its `null` flag.  A model class carries its
declared fields, the optional `fields_with_markup` attribute, and — standing
in for `objects.all()` — the list of its persisted instances.  An instance
holds its field values as an association list from field name to
string-or-None. -/

structure Field where
  name : String
  mro : List String
  null : Bool
deriving DecidableEq, Repr

structure Instance where
  pk : Nat
  values : List (String × Option String)
deriving DecidableEq, Repr

structure PyModel where
  name : String
  fields : List Field
  fields_with_markup : Option (List Field)
  instances : List Instance
deriving DecidableEq, Repr

/-- `isinstance(field, allowlist)`: the field's class, or one of its
ancestors, is named in the allowlist. -/
def is_allowed (allowlist : List String) (field : Field) : Bool :=
  allowlist.any (fun cls => field.mro.contains cls)

/-- Python `getattr(instance_, name)` for a field value, assuming the
attribute exists; an absent entry reads as None, as Django fields are always
present on instances. -/
def getattr (instance_ : Instance) (name : String) : Option String :=
  (instance_.values.lookup name).getD none

/-- Python `setattr(instance_, name, v)`: update the entry if present,
append it otherwise. -/
def setattr (instance_ : Instance) (name : String) (v : Option String) :
    Instance :=
  if (instance_.values.lookup name).isSome then
    { instance_ with
      values := instance_.values.map
        (fun p => if p.1 = name then (name, v) else p) }
  else
    { instance_ with values := instance_.values ++ [(name, v)] }

/-! ## Field selection (`yamldoc.util.traverse`) -/

/-- Embedding of `get_explicit_fields`: read the opt-in `fields_with_markup`
attribute; an absent attribute is the Python `AttributeError`. -/
def get_explicit_fields (subject_model : PyModel) : Except Unit (List Field) :=
  match subject_model.fields_with_markup with
  | some fs => .ok fs
  | none => .error ()

/-- The closure returned by `classbased_selector`: explicit opt-in fields if
declared, otherwise all declared fields filtered by `isinstance` against the
allowlist. -/
def field_selector (allowlist : List String) (subject_model : PyModel) :
    List Field :=
  match get_explicit_fields subject_model with
  | .ok fs => fs
  | .error _ => subject_model.fields.filter (is_allowed allowlist)

/-- The error the spec's taxonomy calls a configuration error: in the source
it is the failure of `assert allowlist` at selector construction. -/
inductive ConfigurationError where
  | emptyAllowlist
deriving DecidableEq, Repr

/-- Embedding of `classbased_selector`: the `assert allowlist` guard fires
immediately at construction when the allowlist is empty; otherwise the
selector closure is returned. -/
def classbased_selector (allowlist : List String) :
    Except ConfigurationError (PyModel → List Field) :=
  if allowlist.isEmpty then .error .emptyAllowlist
  else .ok (field_selector allowlist)

/-- `markup_field_selector = classbased_selector((MarkupField,))`; the
construction succeeds because the allowlist is non-empty. -/
def markup_field_selector : PyModel → List Field :=
  field_selector ["MarkupField"]

/-! ## Model selection and traversal (`yamldoc.util.traverse`)

A site is a list of apps; an app, as packaged by `_apps_from_site`, is the
list of its model classes (`app_.values()`). -/

abbrev App := List PyModel
abbrev Node := Instance × Field × Option String
abbrev Screen := PyModel → Bool

/-- The `top_levels` generator inside `screen_from_field_selector`: all
models of the site whose field-selector result is non-empty (truthy). -/
def top_levels (site : List App) (fsel : PyModel → List Field) :
    List PyModel :=
  site.flatMap (fun app_ => app_.filter (fun m => !(fsel m).isEmpty))

/-- Embedding of `screen_from_acl` with the identity `Identifier`.  The
source also asserts that `allow` and `deny` are not both non-empty. -/
def screen_from_acl (allow : List PyModel) (deny : List PyModel) : Screen :=
  if !deny.isEmpty then fun m => !(deny.contains m)
  else if !allow.isEmpty then fun m => allow.contains m
  else fun _ => true

/-- Embedding of `screen_from_field_selector`: allow exactly the models
found by a preliminary traversal with the given field selector. -/
def screen_from_field_selector (site : List App)
    (fsel : PyModel → List Field) : Screen :=
  screen_from_acl (top_levels site fsel) []

/-- Embedding of the `instance` generator: one node per allowlisted field.
The source converts the allowlist to a `frozenset`; selectors return
distinct fields, so the list itself stands in for the set. -/
def instance_nodes (instance_ : Instance) (field_allowlist : List Field) :
    List Node :=
  field_allowlist.map (fun field => (instance_, field, getattr instance_ field.name))

/-- Embedding of the `model` generator: the field allowlist is computed once
per model type, then every persisted instance is traversed with it. -/
def model_nodes (model_ : PyModel) (fsel : PyModel → List Field) :
    List Node :=
  model_.instances.flatMap (fun inst => instance_nodes inst (fsel model_))

/-- Embedding of the `app` generator: when no screen is passed, the default
is `screen_from_field_selector()` — built with its own default
`markup_field_selector`, independently of the `fsel` argument. -/
def app (site : List App) (app_ : App) (screen : Option Screen)
    (fsel : PyModel → List Field) : List Node :=
  let s := match screen with
    | none => screen_from_field_selector site markup_field_selector
    | some s => s
  (app_.filter s).flatMap (fun m => model_nodes m fsel)

/-- Embedding of the `site` generator: traverse every app of the site. -/
def site_nodes (site : List App) (screen : Option Screen)
    (fsel : PyModel → List Field) : List Node :=
  site.flatMap (fun app_ => app site app_ screen fsel)

/-! ## Resolution driver (`yamldoc.util.resolution.visit_field`)

A resolver is called as `resolver(instance, prior_contents)` with a non-None
prior value and may return None.  `visit_field` is embedded as a pure
function returning the updated instance together with the list of `save()`
calls it performed (each entry the instance snapshot that was persisted). -/

abbrev Resolver := Instance → String → Option String

/-- Embedding of `visit_field`: compute the new contents (None-policy by the
field's `null` flag), write them into the field unconditionally, and persist
the single instance once. -/
def visit_field (resolver : Resolver) (node : Node) :
    Instance × List Instance :=
  let (instance_, field, prior_contents) := node
  let resolved : Option String :=
    match prior_contents with
    | none => none
    | some p => resolver instance_ p
  let new_contents : Option String :=
    if resolved.isNone ∧ !field.null then some "" else resolved
  let saved := setattr instance_ field.name new_contents
  (saved, [saved])

/-! ## Records and bulk creation (`yamldoc.models.UploadableMixin`)

A raw fragment is embedded with the keys the mixin touches: `title`,
`parent_object` (with `none` standing for both a missing key and an explicit
None, as `item.get` returns None in either case) and `tags`.  A stored
record keeps its primary key, title, slug, parent link (by primary key) and
tags; the database is the record table plus a fresh-key counter. -/

structure Raw where
  title : String
  parent_object : Option String
  tags : List String
deriving DecidableEq, Repr

structure Record where
  pk : Nat
  title : String
  slug : String
  parent_object : Option Nat
  tags : List String
deriving DecidableEq, Repr

structure DB where
  records : List Record
  nextPk : Nat
deriving DecidableEq, Repr

/-- Errors raised by Django's `Model.objects.get`. -/
inductive GetError where
  | doesNotExist
  | multipleObjectsReturned
deriving DecidableEq, Repr

/-- An unhandled exception during batch construction: a `ValueError` from
`slugify` or an uncaught lookup error. -/
inductive BatchError where
  | valueError (msg : String)
  | getError (e : GetError)
deriving DecidableEq, Repr

/-- `cls.objects.get(slug=slug)`. -/
def objects_get_slug (db : DB) (slug : String) : Except GetError Record :=
  match db.records.filter (fun r => r.slug = slug) with
  | [] => .error .doesNotExist
  | [r] => .ok r
  | _ :: _ :: _ => .error .multipleObjectsReturned

/-- `cls.objects.get(pk=pk)`. -/
def objects_get_pk (db : DB) (pk : Nat) : Except GetError Record :=
  match db.records.filter (fun r => r.pk = pk) with
  | [] => .error .doesNotExist
  | [r] => .ok r
  | _ :: _ :: _ => .error .multipleObjectsReturned

/-- `record.save()` on an already-persisted record: replace the row with the
same primary key. -/
def save_record (db : DB) (r : Record) : DB :=
  { db with records := db.records.map (fun s => if s.pk = r.pk then r else s) }

/-- Embedding of `UploadableMixin.create`: derive the slug from the title
(`slugify` may raise), persist a new record with no parent link, and attach
any tags.  Returns the new record's primary key. -/
def create (db : DB) (item : Raw) : Except BatchError (DB × Nat) :=
  match slugify item.title with
  | .error e => .error (.valueError e)
  | .ok slug =>
    let new : Record :=
      { pk := db.nextPk, title := item.title, slug := slug,
        parent_object := none, tags := item.tags }
    .ok ({ records := db.records ++ [new], nextPk := db.nextPk + 1 }, db.nextPk)

/-- Embedding of `_instantiate_en_masse` over `_iterate_over_raw_data`:
create one record per fragment, accumulating the pk-to-fragment mapping in
iteration order. -/
def instantiate_en_masse (db : DB) :
    List Raw → Except BatchError (DB × List (Nat × Raw))
  | [] => .ok (db, [])
  | item :: rest =>
    match create db item with
    | .error e => .error e
    | .ok (db1, pk) =>
      match instantiate_en_masse db1 rest with
      | .error e => .error e
      | .ok (db2, by_pk) => .ok (db2, (pk, item) :: by_pk)

/-- One iteration of the loop in `_finishing`, for the entry `(pk, item)`:
skip silently on a falsy parent label; otherwise slugify it (a `ValueError`
propagates), look the slug up (only `DoesNotExist` is caught and logged),
skip with a logged error on a self-parent, and otherwise set and save the
child's parent link.  Returns the database and the error log. -/
def finishing_step (db : DB) (log : List String) (pk : Nat) (item : Raw) :
    Except BatchError (DB × List String) :=
  match item.parent_object with
  | none => .ok (db, log)
  | some sluggable =>
    if sluggable = "" then .ok (db, log)
    else
      match slugify sluggable with
      | .error e => .error (.valueError e)
      | .ok slug =>
        match objects_get_slug db slug with
        | .error .doesNotExist =>
          .ok (db, log ++ ["Stated parent not found: " ++ sluggable])
        | .error e => .error (.getError e)
        | .ok parent =>
          if parent.pk = pk then
            .ok (db, log ++ ["Item is its own parent: " ++ sluggable])
          else
            match objects_get_pk db pk with
            | .error e => .error (.getError e)
            | .ok child =>
              .ok (save_record db { child with parent_object := some parent.pk },
                   log)

/-- Embedding of `_finishing`: run `finishing_step` over every created
record in order; an unhandled exception aborts the pass. -/
def finishing (db : DB) (log : List String) :
    List (Nat × Raw) → Except BatchError (DB × List String)
  | [] => .ok (db, log)
  | (pk, item) :: rest =>
    match finishing_step db log pk item with
    | .error e => .error e
    | .ok (db1, log1) => finishing db1 log1 rest

/-- The body of `create_en_masse` without its transaction decorator:
instantiate every fragment, then run the finishing pass. -/
def create_en_masse_inner (raws : List Raw) (db : DB) :
    Except BatchError (DB × List String) :=
  match instantiate_en_masse db raws with
  | .error e => .error e
  | .ok (db1, by_pk) => finishing db1 [] by_pk

/-- Embedding of `create_en_masse` with its `@transaction.atomic` decorator:
on any unhandled exception the storage state rolls back to the initial
database; on success the final database is committed.  The second component
reports the escaped exception, if any. -/
def create_en_masse (raws : List Raw) (db : DB) : DB × Option BatchError :=
  match create_en_masse_inner raws db with
  | .ok (db', _log) => (db', none)
  | .error e => (db, some e)

/-! ## Inline markup substitution (`yamldoc.util.markup.Inline`)

`Inline` is `ovid.inspecting.SignatureShorthand.variant_class(flags=re.DOTALL)`;
the `collective_sub` it provides lives in the external ovid package, not in
this repository.  It is modelled from the spec: a registry maps a token name
to a substitution function; an occurrence has the delimited form
`\x7b\x7btoken|args\x7d\x7d` (arguments may span lines); each occurrence is
replaced by the function's result and unmatched text is left verbatim. -/

def lbrace : Char := Char.ofNat 123

def rbrace : Char := Char.ofNat 125

/-- Modelled from the spec: the opening text of a registered token's
occurrences — two opening braces followed by the token name. -/
def trigger (name : String) : List Char :=
  lbrace :: lbrace :: name.data

/-- Modelled from the spec: split the text at the first closing
double-brace, returning the argument text before it and the remainder after
it, mirroring the non-greedy argument match of the token pattern. -/
def splitClose : List Char → Option (List Char × List Char)
  | [] => none
  | [_] => none
  | c :: c2 :: rest2 =>
    if c = rbrace ∧ c2 = rbrace then some ([], rest2)
    else
      match splitClose (c2 :: rest2) with
      | some (args, tail) => some (c :: args, tail)
      | none => none

theorem splitClose_shrinks (l : List Char) :
    ∀ (args tail : List Char), splitClose l = some (args, tail) →
      tail.length < l.length := by
  induction l with
  | nil => intro args tail h; simp [splitClose] at h
  | cons c rest ih =>
    intro args tail h
    cases rest with
    | nil => simp [splitClose] at h
    | cons c2 rest2 =>
      rw [splitClose] at h
      by_cases hbr : c = rbrace ∧ c2 = rbrace
      · rw [if_pos hbr] at h
        simp only [Option.some.injEq, Prod.mk.injEq] at h
        obtain ⟨-, rfl⟩ := h
        simp only [List.length_cons]
        omega
      · rw [if_neg hbr] at h
        cases hsp : splitClose (c2 :: rest2) with
        | none => rw [hsp] at h; simp at h
        | some p =>
          obtain ⟨args', tail'⟩ := p
          rw [hsp] at h
          simp only [Option.some.injEq, Prod.mk.injEq] at h
          obtain ⟨-, rfl⟩ := h
          have h1 := ih args' tail' hsp
          simp only [List.length_cons] at h1 ⊢
          omega

/-- Modelled from the spec: substitute every occurrence of one registered
token.  At each position, if the token's opening text begins there and a
closing double-brace follows, the occurrence is replaced by the registered
function applied to the argument text; all other text, including token-like
text that never closes, is left verbatim. -/
def subOne (name : String) (fn : List Char → List Char) :
    List Char → List Char
  | [] => []
  | c :: rest =>
    if (trigger name).isPrefixOf (c :: rest) then
      match hs : splitClose (List.drop (trigger name).length (c :: rest)) with
      | some (args, tail) => fn args ++ subOne name fn tail
      | none => c :: subOne name fn rest
    else c :: subOne name fn rest
termination_by l => l.length
decreasing_by
  · have h1 := splitClose_shrinks _ _ _ hs
    have h2 : (List.drop (trigger name).length (c :: rest)).length ≤
        (c :: rest).length := by
      simp [List.length_drop]
    omega
  · simp
  · simp

/-- A pattern occurs somewhere in the text: it is a prefix of some suffix.
Used to state when a registered token cannot match. -/
def occursIn (pat : List Char) : List Char → Bool
  | [] => pat.isEmpty
  | c :: rest => pat.isPrefixOf (c :: rest) || occursIn pat rest

/-- Modelled from the spec: ovid's `collective_sub` as provided by
`Inline = SignatureShorthand.variant_class(flags=re.DOTALL)` — substitute
the occurrences of every registered token in turn. -/
def collective_sub (registry : List (String × (List Char → List Char)))
    (text : List Char) : List Char :=
  registry.foldl (fun acc entry => subOne entry.1 entry.2 acc) text

/-- Embedding of `yamldoc.util.resolution.inline_on_string` over the
modelled registry: resolve all registered Inline markup in a string. -/
def inline_on_string (registry : List (String × (List Char → List Char)))
    (raw : String) : String :=
  ⟨collective_sub registry raw.data⟩

/-! ## Concrete examples used by counterexamples and witnesses -/

def charFieldEx : Field :=
  { name := "body", mro := ["CharField", "Field"], null := false }

/-- A model whose only markup-bearing field is a plain `CharField`: no
`MarkupField`, no explicit `fields_with_markup`. -/
def plainModelEx : PyModel :=
  { name := "Plain", fields := [charFieldEx], fields_with_markup := none,
    instances := [{ pk := 1, values := [("body", some "x")] }] }

/-- A model carrying a `MarkupField`, with no persisted instances. -/
def markupModelEx : PyModel :=
  { name := "Marked",
    fields := [{ name := "summary", mro := ["MarkupField", "TextField", "Field"],
                 null := false }],
    fields_with_markup := none, instances := [] }

def siteEx : List App := [[markupModelEx, plainModelEx]]

/-- A custom field selector admitting `CharField`s. -/
def charSelector : PyModel → List Field := field_selector ["CharField"]

def dbEx : DB :=
  { records := [{ pk := 1, title := "A", slug := "a", parent_object := none,
                  tags := [] }],
    nextPk := 2 }

/-! ## Helper lemmas on attribute access -/

theorem lookup_replace_self (n : String) (v : Option String) :
    ∀ l : List (String × Option String), (l.lookup n).isSome →
      (l.map (fun p => if p.1 = n then (n, v) else p)).lookup n = some v := by
  intro l
  induction l with
  | nil => intro h; simp [List.lookup] at h
  | cons p rest ih =>
    intro h
    obtain ⟨k, w⟩ := p
    by_cases hk : k = n
    · subst hk
      simp only [List.map_cons, if_pos rfl]
      simp [List.lookup]
    · have hbeq : (n == k) = false := beq_eq_false_iff_ne.mpr (fun e => hk e.symm)
      simp only [List.map_cons, if_neg hk]
      simp only [List.lookup, hbeq] at h ⊢
      exact ih h

theorem lookup_replace_other (n m : String) (v : Option String) (hmn : m ≠ n) :
    ∀ l : List (String × Option String),
      (l.map (fun p => if p.1 = n then (n, v) else p)).lookup m = l.lookup m := by
  intro l
  induction l with
  | nil => simp
  | cons p rest ih =>
    obtain ⟨k, w⟩ := p
    by_cases hk : k = n
    · subst hk
      have hbeq : (m == k) = false := beq_eq_false_iff_ne.mpr hmn
      simp only [List.map_cons, if_pos rfl]
      simp only [List.lookup, hbeq, ih]
    · by_cases hmk : m = k
      · subst hmk
        simp only [List.map_cons, if_neg hk]
        simp [List.lookup]
      · have hbeq : (m == k) = false := beq_eq_false_iff_ne.mpr hmk
        simp only [List.map_cons, if_neg hk]
        simp only [List.lookup, hbeq, ih]

theorem lookup_append_pair (m n : String) (v : Option String)
    (hmn : m ≠ n) :
    ∀ l : List (String × Option String),
      (l ++ [(n, v)]).lookup m = l.lookup m := by
  intro l
  induction l with
  | nil =>
    have hbeq : (m == n) = false := beq_eq_false_iff_ne.mpr hmn
    simp only [List.nil_append, List.lookup, hbeq]
  | cons p rest ih =>
    obtain ⟨k, w⟩ := p
    by_cases hmk : m = k
    · subst hmk
      simp only [List.cons_append]
      simp [List.lookup]
    · have hbeq : (m == k) = false := beq_eq_false_iff_ne.mpr hmk
      simp only [List.cons_append, List.lookup, hbeq]
      exact ih

theorem lookup_append_self (n : String) (v : Option String) :
    ∀ l : List (String × Option String), (l.lookup n) = none →
      (l ++ [(n, v)]).lookup n = some v := by
  intro l
  induction l with
  | nil => intro h; simp [List.lookup]
  | cons p rest ih =>
    intro h
    obtain ⟨k, w⟩ := p
    by_cases hk : k = n
    · subst hk
      simp only [List.lookup, beq_self_eq_true] at h
      exact absurd h (by simp)
    · have hbeq : (n == k) = false := beq_eq_false_iff_ne.mpr (fun e => hk e.symm)
      simp only [List.lookup, hbeq] at h
      simp only [List.cons_append, List.lookup, hbeq]
      exact ih h

theorem getattr_setattr_self (instance_ : Instance) (n : String)
    (v : Option String) : getattr (setattr instance_ n v) n = v := by
  unfold getattr setattr
  by_cases h : (instance_.values.lookup n).isSome
  · rw [if_pos h]
    simp only
    rw [lookup_replace_self n v instance_.values h]
    rfl
  · rw [if_neg h]
    simp only
    rw [lookup_append_self n v instance_.values (Option.not_isSome_iff_eq_none.mp h)]
    rfl

theorem getattr_setattr_other (instance_ : Instance) (n m : String)
    (v : Option String) (hmn : m ≠ n) :
    getattr (setattr instance_ n v) m = getattr instance_ m := by
  unfold getattr setattr
  by_cases h : (instance_.values.lookup n).isSome
  · rw [if_pos h]
    simp only
    rw [lookup_replace_other n m v hmn instance_.values]
  · rw [if_neg h]
    simp only
    rw [lookup_append_pair m n v hmn instance_.values]

/-! ## Claim theorems -/

/-- C1: constructing a field selector via `classbased_selector` with an
empty allowed-types tuple fails immediately, with the configuration error
the spec names; for every non-empty allowed-types tuple, construction
succeeds. -/
theorem classbased_selector_empty_guard (allowlist : List String) :
    (allowlist = [] →
      classbased_selector allowlist = .error .emptyAllowlist) ∧
    (allowlist ≠ [] →
      classbased_selector allowlist = .ok (field_selector allowlist)) := by
  constructor
  · rintro rfl; rfl
  · intro h
    unfold classbased_selector
    rw [if_neg (by simpa [List.isEmpty_iff] using h)]

theorem classbased_selector_empty_guard_witness :
    classbased_selector [] = .error .emptyAllowlist ∧
    classbased_selector ["MarkupField"] = .ok (field_selector ["MarkupField"]) :=
  ⟨(classbased_selector_empty_guard []).1 rfl,
   (classbased_selector_empty_guard ["MarkupField"]).2 (by decide)⟩

/-- C4: for every non-empty type allowlist, the constructed selector returns
exactly the declared `fields_with_markup` list whenever the model declares
one, regardless of the allowlist's contents; the `isinstance` filter over
the declared fields is used only when the attribute is absent. -/
theorem explicit_fields_precedence (allowlist : List String)
    (h : allowlist ≠ []) (m : PyModel) :
    classbased_selector allowlist = .ok (field_selector allowlist) ∧
    (∀ fs, m.fields_with_markup = some fs → field_selector allowlist m = fs) ∧
    (m.fields_with_markup = none →
      field_selector allowlist m = m.fields.filter (is_allowed allowlist)) := by
  refine ⟨?_, ?_, ?_⟩
  · unfold classbased_selector
    rw [if_neg (by simpa [List.isEmpty_iff] using h)]
  · intro fs hfs
    unfold field_selector get_explicit_fields
    rw [hfs]
  · intro hnone
    unfold field_selector get_explicit_fields
    rw [hnone]

theorem explicit_fields_precedence_witness :
    field_selector ["CharField"]
      { name := "M", fields := [],
        fields_with_markup := some [{ name := "body", mro := ["TextField"], null := false }],
        instances := [] } =
      [{ name := "body", mro := ["TextField"], null := false }] :=
  (explicit_fields_precedence ["CharField"] (by decide) _).2.1 _ rfl

/-- C2: for every node processed by the resolution driver, the stored result
follows the None policy — a None prior value or a None resolver result
stores None on a nullable field and the empty string on a non-nullable
field — and a non-None prior value is passed through
`resolver instance_ value`. -/
theorem visit_field_none_policy (resolver : Resolver) (instance_ : Instance)
    (field : Field) (prior : Option String) :
    getattr (visit_field resolver (instance_, field, prior)).1 field.name =
      match prior with
      | none => if field.null then none else some ""
      | some p =>
        match resolver instance_ p with
        | none => if field.null then none else some ""
        | some s => some s := by
  cases prior with
  | none =>
    simp only [visit_field, Option.isNone_none]
    rw [getattr_setattr_self]
    cases field.null <;> simp
  | some p =>
    simp only [visit_field]
    rw [getattr_setattr_self]
    cases hr : resolver instance_ p with
    | none => cases hb : field.null <;> simp
    | some s => simp

/-- C9: the resolution driver persists the visited instance exactly once per
node — the single saved snapshot is the updated instance, saved
unconditionally — and no field other than the visited one is modified. -/
theorem visit_field_single_write (resolver : Resolver) (instance_ : Instance)
    (field : Field) (prior : Option String) :
    (visit_field resolver (instance_, field, prior)).2 =
      [(visit_field resolver (instance_, field, prior)).1] ∧
    (visit_field resolver (instance_, field, prior)).2.length = 1 ∧
    (∀ m, m ≠ field.name →
      getattr (visit_field resolver (instance_, field, prior)).1 m =
        getattr instance_ m) := by
  refine ⟨rfl, rfl, ?_⟩
  intro m hm
  simp only [visit_field]
  exact getattr_setattr_other instance_ field.name m _ hm

theorem visit_field_single_write_witness :
    getattr
      ((visit_field (fun _ _ => none)
        ({ pk := 1, values := [("body", some "x"), ("summary", some "y")] },
         { name := "body", mro := ["MarkupField"], null := false },
         some "x")).1) "summary" =
      some "y" :=
  ((visit_field_single_write (fun _ _ => none)
      { pk := 1, values := [("body", some "x"), ("summary", some "y")] }
      { name := "body", mro := ["MarkupField"], null := false }
      (some "x")).2.2 "summary" (by decide)).trans (by decide)

/-- C3 as stated is false: in a traversal started without an explicit
Screen but with a custom field selector, the default Screen is built from
`markup_field_selector`, not from the field selector in use.  `plainModelEx`
has a field matching `charSelector` and a persisted instance, yet the
default Screen rejects it and the traversal yields nothing. -/
theorem default_screen_counterexample :
    charSelector plainModelEx ≠ [] ∧
    model_nodes plainModelEx charSelector ≠ [] ∧
    screen_from_field_selector siteEx markup_field_selector plainModelEx = false ∧
    app siteEx [markupModelEx, plainModelEx] none charSelector = [] := by
  refine ⟨by decide, by decide, by decide, by decide⟩

/-- C3 (amended): for a traversal started without an explicit Screen, the
default Screen is built from the default markup field selector regardless of
the field selector in use; provided some model of the site has a
markup-selected field, it admits exactly those model types of the site with
at least one field matching the default markup field selector. -/
theorem default_screen_amended (site : List App) (app_ : App)
    (fsel : PyModel → List Field) (m : PyModel)
    (hne : top_levels site markup_field_selector ≠ []) :
    (app site app_ none fsel =
      (app_.filter (screen_from_field_selector site markup_field_selector)).flatMap
        (fun m' => model_nodes m' fsel)) ∧
    (screen_from_field_selector site markup_field_selector m = true ↔
      ((∃ a ∈ site, m ∈ a) ∧ markup_field_selector m ≠ [])) := by
  constructor
  · rfl
  · unfold screen_from_field_selector screen_from_acl
    simp only [List.isEmpty_nil, Bool.not_true, Bool.false_eq_true, if_false]
    rw [if_pos (by simp [List.isEmpty_eq_false, hne])]
    rw [show ((top_levels site markup_field_selector).contains m = true) ↔
        m ∈ top_levels site markup_field_selector from List.elem_iff]
    simp only [top_levels, List.mem_flatMap, List.mem_filter,
      Bool.not_eq_true', List.isEmpty_eq_false, ne_eq]
    tauto

theorem default_screen_amended_witness :
    (app siteEx [markupModelEx, plainModelEx] none charSelector =
      ([markupModelEx, plainModelEx].filter
        (screen_from_field_selector siteEx markup_field_selector)).flatMap
        (fun m' => model_nodes m' charSelector)) ∧
    (screen_from_field_selector siteEx markup_field_selector markupModelEx = true ↔
      ((∃ a ∈ siteEx, markupModelEx ∈ a) ∧ markup_field_selector markupModelEx ≠ [])) :=
  default_screen_amended siteEx [markupModelEx, plainModelEx] charSelector
    markupModelEx (by decide)

/-- C5: in the finishing pass, a record whose parent label slugifies to no
existing record's slug, and a record whose parent lookup resolves to the
record itself, are logged as errors and skipped without an exception — the
database is unchanged for that record — and the remaining records are still
processed. -/
theorem finishing_nonfatal_skip (db : DB) (log : List String) (pk : Nat)
    (item : Raw) (rest : List (Nat × Raw)) (s slug : String)
    (hpar : item.parent_object = some s) (hs : s ≠ "")
    (hslug : slugify s = .ok slug)
    (hmatch : db.records.filter (fun r => r.slug = slug) = [] ∨
      ∃ r, db.records.filter (fun r => r.slug = slug) = [r] ∧ r.pk = pk) :
    ∃ msg, finishing_step db log pk item = .ok (db, log ++ [msg]) ∧
      finishing db log ((pk, item) :: rest) = finishing db (log ++ [msg]) rest := by
  have hstep : ∃ msg, finishing_step db log pk item = .ok (db, log ++ [msg]) := by
    rcases hmatch with hnone | ⟨r, hr, hrpk⟩
    · exact ⟨"Stated parent not found: " ++ s,
        by simp only [finishing_step, hpar, if_neg hs, hslug,
          objects_get_slug, hnone]⟩
    · exact ⟨"Item is its own parent: " ++ s,
        by simp only [finishing_step, hpar, if_neg hs, hslug,
          objects_get_slug, hr, if_pos hrpk]⟩
  obtain ⟨msg, hmsg⟩ := hstep
  exact ⟨msg, hmsg, by simp only [finishing, hmsg]⟩

theorem finishing_nonfatal_skip_witness :
    ∃ msg, finishing_step dbEx [] 1
        { title := "B", parent_object := some "Zed", tags := [] } =
        .ok (dbEx, [] ++ [msg]) ∧
      finishing dbEx []
        [(1, { title := "B", parent_object := some "Zed", tags := [] })] =
        finishing dbEx ([] ++ [msg]) [] :=
  finishing_nonfatal_skip dbEx [] 1
    { title := "B", parent_object := some "Zed", tags := [] } [] "Zed" "zed"
    rfl (by decide) (by decide) (Or.inl (by decide))

/-- C10: in the finishing pass, a record whose fragment has no
`parent_object` entry (or an explicit None) or whose value is the empty
string is skipped silently: the step succeeds, nothing is logged, the
database — and so the record's absent parent link — is untouched, and the
pass continues with the remaining records. -/
theorem finishing_falsy_parent_skip (db : DB) (log : List String) (pk : Nat)
    (item : Raw) (rest : List (Nat × Raw))
    (h : item.parent_object = none ∨ item.parent_object = some "") :
    finishing_step db log pk item = .ok (db, log) ∧
    finishing db log ((pk, item) :: rest) = finishing db log rest := by
  have hstep : finishing_step db log pk item = .ok (db, log) := by
    rcases h with h | h <;> simp [finishing_step, h]
  exact ⟨hstep, by simp only [finishing, hstep]⟩

theorem finishing_falsy_parent_skip_witness :
    finishing_step dbEx [] 1
      { title := "B", parent_object := some "", tags := [] } = .ok (dbEx, []) ∧
    finishing dbEx []
      [(1, { title := "B", parent_object := some "", tags := [] })] =
      finishing dbEx [] [] :=
  finishing_falsy_parent_skip dbEx [] 1
    { title := "B", parent_object := some "", tags := [] } [] (Or.inr rfl)

theorem instantiate_mono (raws : List Raw) :
    ∀ (db db2 : DB) (by_pk : List (Nat × Raw)),
      instantiate_en_masse db raws = .ok (db2, by_pk) →
      ∀ r ∈ db.records, r ∈ db2.records := by
  induction raws with
  | nil =>
    intro db db2 by_pk h r hr
    simp only [instantiate_en_masse, Except.ok.injEq, Prod.mk.injEq] at h
    obtain ⟨rfl, -⟩ := h
    exact hr
  | cons item rest ih =>
    intro db db2 by_pk h r hr
    cases hc : create db item with
    | error e => simp [instantiate_en_masse, hc] at h
    | ok p =>
      obtain ⟨db1, pk⟩ := p
      cases hi : instantiate_en_masse db1 rest with
      | error e => simp [instantiate_en_masse, hc, hi] at h
      | ok q =>
        obtain ⟨dbf, bp⟩ := q
        simp only [instantiate_en_masse, hc, hi, Except.ok.injEq,
          Prod.mk.injEq] at h
        obtain ⟨rfl, -⟩ := h
        have hr1 : r ∈ db1.records := by
          cases hsl : slugify item.title with
          | error e => simp [create, hsl] at hc
          | ok slug =>
            simp only [create, hsl, Except.ok.injEq, Prod.mk.injEq] at hc
            obtain ⟨rfl, -⟩ := hc
            simp [hr]
        exact ih db1 dbf bp hi r hr1

theorem instantiate_commits (raws : List Raw) :
    ∀ (db db2 : DB) (by_pk : List (Nat × Raw)),
      instantiate_en_masse db raws = .ok (db2, by_pk) →
      ∀ item ∈ raws, ∃ r ∈ db2.records,
        r.title = item.title ∧ slugify item.title = .ok r.slug := by
  induction raws with
  | nil => intro db db2 by_pk h item hitem; simp at hitem
  | cons itemh rest ih =>
    intro db db2 by_pk h item hitem
    cases hc : create db itemh with
    | error e => simp [instantiate_en_masse, hc] at h
    | ok p =>
      obtain ⟨db1, pk⟩ := p
      cases hi : instantiate_en_masse db1 rest with
      | error e => simp [instantiate_en_masse, hc, hi] at h
      | ok q =>
        obtain ⟨dbf, bp⟩ := q
        simp only [instantiate_en_masse, hc, hi, Except.ok.injEq,
          Prod.mk.injEq] at h
        obtain ⟨rfl, -⟩ := h
        rcases List.mem_cons.mp hitem with rfl | hmem
        · cases hsl : slugify item.title with
          | error e => simp [create, hsl] at hc
          | ok slug =>
            simp only [create, hsl, Except.ok.injEq, Prod.mk.injEq] at hc
            obtain ⟨rfl, -⟩ := hc
            refine ⟨{ pk := db.nextPk, title := item.title, slug := slug,
                      parent_object := none, tags := item.tags }, ?_, rfl, rfl⟩
            exact instantiate_mono rest _ dbf bp hi _ (by simp)
        · exact ih db1 dbf bp hi item hmem

theorem finishing_step_preserves (db db1 : DB) (log log1 : List String)
    (pk : Nat) (item : Raw)
    (h : finishing_step db log pk item = .ok (db1, log1)) :
    ∀ r ∈ db.records, ∃ r2 ∈ db1.records,
      r2.pk = r.pk ∧ r2.title = r.title ∧ r2.slug = r.slug := by
  intro r hr
  unfold finishing_step at h
  split at h
  · simp only [Except.ok.injEq, Prod.mk.injEq] at h
    obtain ⟨rfl, -⟩ := h
    exact ⟨r, hr, rfl, rfl, rfl⟩
  · split at h
    · simp only [Except.ok.injEq, Prod.mk.injEq] at h
      obtain ⟨rfl, -⟩ := h
      exact ⟨r, hr, rfl, rfl, rfl⟩
    · split at h
      · simp at h
      · split at h
        · simp only [Except.ok.injEq, Prod.mk.injEq] at h
          obtain ⟨rfl, -⟩ := h
          exact ⟨r, hr, rfl, rfl, rfl⟩
        · simp at h
        · split at h
          · simp only [Except.ok.injEq, Prod.mk.injEq] at h
            obtain ⟨rfl, -⟩ := h
            exact ⟨r, hr, rfl, rfl, rfl⟩
          · split at h
            · simp at h
            · rename_i parentRec hslugeq hpkneg xg child hgetpk
              simp only [Except.ok.injEq, Prod.mk.injEq] at h
              obtain ⟨rfl, -⟩ := h
              have hchildpk : child.pk = pk := by
                unfold objects_get_pk at hgetpk
                split at hgetpk
                · simp at hgetpk
                · rename_i r1 hfil
                  simp only [Except.ok.injEq] at hgetpk
                  have hr1 : r1 ∈ db.records.filter (fun t => t.pk = pk) := by
                    rw [hfil]; simp
                  rw [← hgetpk]
                  exact of_decide_eq_true (List.mem_filter.mp hr1).2
                · simp at hgetpk
              have hchild : ∀ s ∈ db.records, s.pk = pk → s = child := by
                intro s hsmem hspk
                have hs2 : s ∈ db.records.filter (fun t => t.pk = pk) := by
                  simp [List.mem_filter, hsmem, hspk]
                unfold objects_get_pk at hgetpk
                split at hgetpk
                · simp at hgetpk
                · rename_i r1 hfil
                  rw [hfil] at hs2
                  simp only [List.mem_singleton] at hs2
                  simp only [Except.ok.injEq] at hgetpk
                  rw [hs2, hgetpk]
                · simp at hgetpk
              simp only [save_record]
              by_cases hpk : r.pk = pk
              · have hrc : r = child := hchild r hr hpk
                refine ⟨{ child with parent_object := some parentRec.pk },
                  List.mem_map.mpr ⟨r, hr, by simp [hrc]⟩, ?_, ?_, ?_⟩
                · rw [hrc]
                · rw [hrc]
                · rw [hrc]
              · refine ⟨r, List.mem_map.mpr ⟨r, hr, ?_⟩, rfl, rfl, rfl⟩
                exact if_neg (fun hcon => hpk (hcon.trans hchildpk))

theorem finishing_preserves (l : List (Nat × Raw)) :
    ∀ (db : DB) (log : List String) (db2 : DB) (log2 : List String),
      finishing db log l = .ok (db2, log2) →
      ∀ r ∈ db.records, ∃ r2 ∈ db2.records,
        r2.pk = r.pk ∧ r2.title = r.title ∧ r2.slug = r.slug := by
  induction l with
  | nil =>
    intro db log db2 log2 h r hr
    simp only [finishing, Except.ok.injEq, Prod.mk.injEq] at h
    obtain ⟨rfl, -⟩ := h
    exact ⟨r, hr, rfl, rfl, rfl⟩
  | cons p rest ih =>
    obtain ⟨pk, item⟩ := p
    intro db log db2 log2 h r hr
    simp only [finishing] at h
    cases hstep : finishing_step db log pk item with
    | error e => rw [hstep] at h; simp at h
    | ok q =>
      obtain ⟨db1, log1⟩ := q
      rw [hstep] at h
      obtain ⟨r1, hr1, hpk, htitle, hslug⟩ :=
        finishing_step_preserves db db1 log log1 pk item hstep r hr
      obtain ⟨r2, hr2, hpk2, ht2, hs2⟩ := ih db1 log1 db2 log2 h r1 hr1
      exact ⟨r2, hr2, hpk2.trans hpk, ht2.trans htitle, hs2.trans hslug⟩

/-- C6: `create_en_masse` runs the whole batch in one atomic transaction —
on any unhandled exception the storage state is unchanged, and on success
every fragment of the batch is committed as a record with its title and
derived slug. -/
theorem create_en_masse_atomic (raws : List Raw) (db : DB) :
    ((create_en_masse raws db).2.isSome → (create_en_masse raws db).1 = db) ∧
    ((create_en_masse raws db).2 = none →
      ∀ item ∈ raws, ∃ r ∈ (create_en_masse raws db).1.records,
        r.title = item.title ∧ slugify item.title = .ok r.slug) := by
  cases hc : create_en_masse_inner raws db with
  | ok p =>
    obtain ⟨db', log⟩ := p
    have he : create_en_masse raws db = (db', none) := by
      simp [create_en_masse, hc]
    rw [he]
    constructor
    · intro h; simp at h
    · intro _ item hitem
      unfold create_en_masse_inner at hc
      cases hi : instantiate_en_masse db raws with
      | error e => rw [hi] at hc; simp at hc
      | ok q =>
        obtain ⟨db1, by_pk⟩ := q
        rw [hi] at hc
        obtain ⟨r, hr, htitle, hslug⟩ :=
          instantiate_commits raws db db1 by_pk hi item hitem
        obtain ⟨r2, hr2, -, ht2, hs2⟩ :=
          finishing_preserves by_pk db1 [] db' log hc r hr
        exact ⟨r2, hr2, ht2.trans htitle, by rw [hs2]; exact hslug⟩
  | error e =>
    have he : create_en_masse raws db = (db, some e) := by
      simp [create_en_masse, hc]
    rw [he]
    exact ⟨fun _ => rfl, by intro h; simp at h⟩

def rawsEx : List Raw :=
  [{ title := "A", parent_object := none, tags := [] },
   { title := "B", parent_object := some "A", tags := [] }]

theorem create_en_masse_atomic_witness :
    ∀ item ∈ rawsEx,
      ∃ r ∈ (create_en_masse rawsEx { records := [], nextPk := 0 }).1.records,
        r.title = item.title ∧ slugify item.title = .ok r.slug :=
  (create_en_masse_atomic rawsEx { records := [], nextPk := 0 }).2 (by decide)

theorem ofNat_toNat_ascii (n : Nat) (h1 : 97 ≤ n) (h2 : n ≤ 122) :
    (Char.ofNat n).toNat = n := by
  have hv : n.isValidChar := Or.inl (by omega)
  simp [Char.ofNat, Char.ofNatAux, hv, Char.toNat, UInt32.toNat]

theorem toLower_toNat (d : Char) :
    ((d.toLower).toNat = d.toNat + 32 ∧ 65 ≤ d.toNat ∧ d.toNat ≤ 90) ∨
    ((d.toLower).toNat = d.toNat ∧ ¬(65 ≤ d.toNat ∧ d.toNat ≤ 90)) := by
  unfold Char.toLower
  by_cases hc : d.toNat ≥ 65 ∧ d.toNat ≤ 90
  · rw [if_pos hc]
    exact Or.inl ⟨ofNat_toNat_ascii _ (by omega) (by omega), hc⟩
  · rw [if_neg hc]
    exact Or.inr ⟨rfl, hc⟩

theorem isWordChar_toLower_slug (d : Char)
    (h : isWordChar d.toLower = true) : isSlugChar d.toLower = true := by
  simp only [isWordChar, decide_eq_true_eq] at h
  simp only [isSlugChar, decide_eq_true_eq]
  rcases h with h | h | h | h
  · exfalso
    rcases toLower_toNat d with ⟨heq, hb⟩ | ⟨heq, hb⟩ <;> omega
  · exact Or.inl h
  · exact Or.inr (Or.inl h)
  · exact Or.inr (Or.inr (Or.inl h))

theorem mem_collapseAux :
    ∀ (l : List Char) (b : Bool) (c : Char), c ∈ collapseAux b l →
      c = '-' ∨ (c ∈ l ∧ ¬(isSpaceChar c = true ∨ c = '-')) := by
  intro l
  induction l with
  | nil => intro b c h; simp [collapseAux] at h
  | cons d rest ih =>
    intro b c h
    simp only [collapseAux] at h
    by_cases hd : isSpaceChar d = true ∨ d = '-'
    · rw [if_pos hd] at h
      cases b with
      | true =>
        rw [if_pos rfl] at h
        rcases ih true c h with h1 | ⟨h2, h3⟩
        · exact Or.inl h1
        · exact Or.inr ⟨List.mem_cons_of_mem _ h2, h3⟩
      | false =>
        rw [if_neg (by simp)] at h
        rcases List.mem_cons.mp h with rfl | h'
        · exact Or.inl rfl
        · rcases ih true c h' with h1 | ⟨h2, h3⟩
          · exact Or.inl h1
          · exact Or.inr ⟨List.mem_cons_of_mem _ h2, h3⟩
    · rw [if_neg hd] at h
      rcases List.mem_cons.mp h with rfl | h'
      · exact Or.inr ⟨List.mem_cons_self _ _, hd⟩
      · rcases ih false c h' with h1 | ⟨h2, h3⟩
        · exact Or.inl h1
        · exact Or.inr ⟨List.mem_cons_of_mem _ h2, h3⟩

theorem mem_stripDashUnderscore (l : List Char) (c : Char)
    (h : c ∈ stripDashUnderscore l) : c ∈ l := by
  unfold stripDashUnderscore at h
  rw [List.mem_reverse] at h
  have h1 := (List.dropWhile_suffix _).subset h
  rw [List.mem_reverse] at h1
  exact (List.dropWhile_suffix _).subset h1

theorem default_slugify_chars (s : String) :
    ∀ c ∈ (default_slugify s).data, isSlugChar c = true := by
  intro c hc
  simp only [default_slugify] at hc
  have hc1 := mem_stripDashUnderscore _ _ hc
  rcases mem_collapseAux _ _ _ hc1 with rfl | ⟨h2, h3⟩
  · simp [isSlugChar]
  · obtain ⟨hmem, hpred⟩ := List.mem_filter.mp h2
    obtain ⟨d, -, rfl⟩ := List.mem_map.mp hmem
    simp only [decide_eq_true_eq] at hpred
    rcases hpred with hw | hsp | hdash
    · exact isWordChar_toLower_slug d hw
    · exact absurd (Or.inl hsp) h3
    · exact absurd (Or.inr hdash) h3

/-- C7: for every input string, `slugify` either returns a non-empty slug
over the URL-safe alphabet — a deterministic function of the input — or
raises; it raises exactly when the input reduces to nothing after HTML-tag
stripping, or to nothing after transliteration and slugification. -/
theorem slugify_spec (s : String) :
    (∀ r, slugify s = .ok r → r ≠ "" ∧ ∀ c ∈ r.data, isSlugChar c = true) ∧
    ((∃ e, slugify s = .error e) ↔
      (strip_tags s = "" ∨ default_slugify (unidecode (strip_tags s)) = "")) := by
  constructor
  · intro r hr
    simp only [slugify] at hr
    by_cases h1 : strip_tags s = ""
    · rw [if_pos h1] at hr; simp at hr
    · rw [if_neg h1] at hr
      by_cases h2 : default_slugify (unidecode (strip_tags s)) = ""
      · rw [if_pos h2] at hr; simp at hr
      · rw [if_neg h2] at hr
        simp only [Except.ok.injEq] at hr
        subst hr
        exact ⟨h2, default_slugify_chars _⟩
  · constructor
    · rintro ⟨e, he⟩
      simp only [slugify] at he
      by_cases h1 : strip_tags s = ""
      · exact Or.inl h1
      · rw [if_neg h1] at he
        by_cases h2 : default_slugify (unidecode (strip_tags s)) = ""
        · exact Or.inr h2
        · rw [if_neg h2] at he; simp at he
    · intro h
      simp only [slugify]
      rcases h with h1 | h2
      · rw [if_pos h1]; exact ⟨_, rfl⟩
      · by_cases h1 : strip_tags s = ""
        · rw [if_pos h1]; exact ⟨_, rfl⟩
        · rw [if_neg h1, if_pos h2]; exact ⟨_, rfl⟩

theorem slugify_spec_witness :
    ("cove-oregon" : String) ≠ "" ∧
    ∀ c ∈ ("cove-oregon" : String).data, isSlugChar c = true :=
  (slugify_spec "Cove, Oregon").1 "cove-oregon" (by decide)

theorem subOne_cons_no_pre (name : String) (fn : List Char → List Char)
    (c : Char) (rest : List Char)
    (h : (trigger name).isPrefixOf (c :: rest) = false) :
    subOne name fn (c :: rest) = c :: subOne name fn rest := by
  rw [subOne]
  rw [h]
  simp

theorem subOne_no_occurrence (name : String) (fn : List Char → List Char) :
    ∀ text : List Char, occursIn (trigger name) text = false →
      subOne name fn text = text := by
  intro text
  induction text with
  | nil => intro h; rw [subOne]
  | cons c rest ih =>
    intro h
    simp only [occursIn, Bool.or_eq_false_iff] at h
    obtain ⟨h1, h2⟩ := h
    rw [subOne_cons_no_pre name fn c rest h1, ih h2]

/-- C8: `collective_sub` applied to text in which no registered token
occurs returns the text unchanged — unmatched text is left verbatim without
error, and re-running substitution on fully resolved text is the
identity. -/
theorem collective_sub_no_match_id
    (registry : List (String × (List Char → List Char))) :
    ∀ text : List Char,
      (∀ e ∈ registry, occursIn (trigger e.1) text = false) →
      collective_sub registry text = text := by
  induction registry with
  | nil => intro text h; rfl
  | cons entry rest ih =>
    intro text h
    have h1 : subOne entry.1 entry.2 text = text :=
      subOne_no_occurrence entry.1 entry.2 text (h entry (List.mem_cons_self _ _))
    show collective_sub rest (subOne entry.1 entry.2 text) = text
    rw [h1]
    exact ih text (fun e he => h e (List.mem_cons_of_mem _ he))

theorem collective_sub_no_match_id_witness :
    collective_sub [("mask", fun args => args)]
      ("Uh huh. No tokens.".data) = "Uh huh. No tokens.".data :=
  collective_sub_no_match_id [("mask", fun args => args)]
    ("Uh huh. No tokens.".data) (by decide)

end Yamldoc
